import Mathlib

/-
Verification development for the test-audio generator
(src/test-audio/generate_test_sounds.py).

Floating-point doubles are embedded as exact rationals (and, for the sine
generator, as reals); the process-wide random source np.random.randn is
embedded as an injected sequence of draws.
-/

namespace Soundman

/-- Feed-forward coefficients of the pink-noise filter: the source's array
b = [0.049922035, -0.095993537, 0.050612699, -0.004408786] (line 72). -/
def b : ℕ → ℚ
  | 0 => 49922035 / 1000000000
  | 1 => -95993537 / 1000000000
  | 2 => 50612699 / 1000000000
  | _ => -4408786 / 1000000000

/-- Feedback coefficients of the pink-noise filter: the source's array
a = [1, -2.494956002, 2.017265875, -0.522189400] (line 73). -/
def a : ℕ → ℚ
  | 0 => 1
  | 1 => -2494956002 / 1000000000
  | 2 => 2017265875 / 1000000000
  | _ => -522189400 / 1000000000

/-- Value of the source's pink array cell i after the filter loop
(lines 76-79): pink is initialised to zeros, indices 0,1,2 are never
written, and for i >= 3 the loop stores
b0*white[i] + b1*white[i-1] + b2*white[i-2] + b3*white[i-3]
- a1*pink[i-1] - a2*pink[i-2] - a3*pink[i-3], reading the pink values the
loop already stored. -/
def pinkStep (w : ℕ → ℚ) : ℕ → ℚ
  | 0 => 0
  | 1 => 0
  | 2 => 0
  | i + 3 =>
      b 0 * w (i + 3) + b 1 * w (i + 2) + b 2 * w (i + 1) + b 3 * w i
        - a 1 * pinkStep w (i + 2) - a 2 * pinkStep w (i + 1) - a 3 * pinkStep w i

/-- The filtered (pre-normalization) pink array of the source, as a list:
cell i holds pinkStep of the white draws (lines 76-79). -/
def pinkFilter (white : List ℚ) : List ℚ :=
  (List.range white.length).map (fun i => pinkStep (fun j => white.getD j 0) i)

/-- np.max(np.abs(l)) (line 82), with 0 for the empty list (numpy raises
there; every use in the source has at least one sample). -/
def maxAbs (l : List ℚ) : ℚ :=
  (l.map (fun x => |x|)).foldr max 0

/-- num_samples = int(sample_rate * duration) (line 68): Python int()
truncates toward zero, which is the floor for the non-negative products the
program forms (a negative product would make np.random.randn raise before
any sample exists). -/
def num_samples (rate : ℕ) (duration : ℚ) : ℕ :=
  (Int.floor ((rate : ℚ) * duration)).toNat

/-- white = np.random.randn(num_samples) (line 69), with the random source
injected as the sequence randn of standard-normal draws. -/
def whiteOf (randn : ℕ → ℚ) (duration : ℚ) (rate : ℕ) : List ℚ :=
  (List.range (num_samples rate duration)).map randn

/-- generate_pink_noise (lines 65-83): filter the white draws, then
normalize and scale every sample, pink = pink / np.max(np.abs(pink)) *
amplitude (line 82), in exact real arithmetic. -/
def generate_pink_noise (randn : ℕ → ℚ) (amplitude duration : ℚ) (rate : ℕ) : List ℚ :=
  (pinkFilter (whiteOf randn duration rate)).map
    (fun x => x / maxAbs (pinkFilter (whiteOf randn duration rate)) * amplitude)

/-- generate_pink_noise at the IEEE-754 level of the normalization step
(line 82): when the divisor np.max(np.abs(pink)) is zero, every quotient is
a non-finite double (0.0/0.0 = NaN), modelled as none; otherwise the sample
is the finite value some (x / max * amplitude). The source has no branch
here: the case split below is the semantics of float division itself. -/
def generate_pink_noise_float (randn : ℕ → ℚ) (amplitude duration : ℚ) (rate : ℕ) :
    List (Option ℚ) :=
  (pinkFilter (whiteOf randn duration rate)).map
    (fun x =>
      if maxAbs (pinkFilter (whiteOf randn duration rate)) = 0 then none
      else some (x / maxAbs (pinkFilter (whiteOf randn duration rate)) * amplitude))

lemma pinkStep_zero (w : ℕ → ℚ) : pinkStep w 0 = 0 := rfl

lemma pinkStep_one (w : ℕ → ℚ) : pinkStep w 1 = 0 := rfl

lemma pinkStep_two (w : ℕ → ℚ) : pinkStep w 2 = 0 := rfl

lemma pinkStep_three (w : ℕ → ℚ) : pinkStep w 3 =
    b 0 * w 3 + b 1 * w 2 + b 2 * w 1 + b 3 * w 0
      - a 1 * pinkStep w 2 - a 2 * pinkStep w 1 - a 3 * pinkStep w 0 := rfl

lemma pinkStep_add_three (w : ℕ → ℚ) (k : ℕ) : pinkStep w (k + 3) =
    b 0 * w (k + 3) + b 1 * w (k + 2) + b 2 * w (k + 1) + b 3 * w k
      - a 1 * pinkStep w (k + 2) - a 2 * pinkStep w (k + 1) - a 3 * pinkStep w k := rfl

lemma pinkStep_of_lt_three (w : ℕ → ℚ) (i : ℕ) (h : i < 3) : pinkStep w i = 0 := by
  interval_cases i <;> rfl

lemma num_samples_two_two : num_samples 2 2 = 4 := by
  unfold num_samples
  norm_num
  rfl

lemma whiteOf_length (randn : ℕ → ℚ) (duration : ℚ) (rate : ℕ) :
    (whiteOf randn duration rate).length = num_samples rate duration := by
  simp [whiteOf]

lemma pinkFilter_length (white : List ℚ) : (pinkFilter white).length = white.length := by
  simp [pinkFilter]

lemma pinkFilter_getD (white : List ℚ) (i : ℕ) (h : i < white.length) :
    (pinkFilter white).getD i 0 = pinkStep (fun j => white.getD j 0) i := by
  unfold pinkFilter
  rw [List.getD_eq_getElem?_getD, List.getElem?_map, List.getElem?_range h]
  rfl

lemma maxAbs_nil : maxAbs ([] : List ℚ) = 0 := rfl

lemma maxAbs_cons (x : ℚ) (l : List ℚ) : maxAbs (x :: l) = max |x| (maxAbs l) := rfl

lemma maxAbs_nonneg (l : List ℚ) : 0 ≤ maxAbs l := by
  induction l with
  | nil => exact le_refl 0
  | cons x t ih => rw [maxAbs_cons]; exact le_trans ih (le_max_right _ _)

lemma abs_le_maxAbs (x : ℚ) (l : List ℚ) (h : x ∈ l) : |x| ≤ maxAbs l := by
  induction l with
  | nil => cases h
  | cons y t ih =>
      rw [maxAbs_cons]
      rcases List.mem_cons.1 h with rfl | h2
      · exact le_max_left _ _
      · exact le_trans (ih h2) (le_max_right _ _)

lemma maxAbs_pos (l : List ℚ) (h : ∃ x ∈ l, x ≠ 0) : 0 < maxAbs l := by
  obtain ⟨x, hx, hne⟩ := h
  exact lt_of_lt_of_le (abs_pos.2 hne) (abs_le_maxAbs x l hx)

lemma maxAbs_map_mul (l : List ℚ) (c : ℚ) (hc : 0 ≤ c) :
    maxAbs (l.map (fun x => x * c)) = maxAbs l * c := by
  induction l with
  | nil => rw [List.map_nil, maxAbs_nil, zero_mul]
  | cons x t ih =>
      rw [List.map_cons, maxAbs_cons, maxAbs_cons, ih, abs_mul, abs_of_nonneg hc,
        max_mul_of_nonneg _ _ hc]

/-- C1. The filtered sequence has N = floor(sampleRate x duration) cells;
cells 0,1,2 are exactly zero; every cell with 3 <= i < N satisfies the
3rd-order recurrence with the fixed coefficient arrays b and a; and the
three zero head cells stay zero through normalization (stated for a nonzero
normalization divisor: with a zero divisor float division returns NaN
rather than a number, the case settled separately). -/
theorem pink_filter_recurrence_and_transient (randn : ℕ → ℚ) (amplitude duration : ℚ)
    (rate : ℕ) :
    (pinkFilter (whiteOf randn duration rate)).length = num_samples rate duration
    ∧ (∀ i, i < 3 → (pinkFilter (whiteOf randn duration rate)).getD i 0 = 0)
    ∧ (∀ i, 3 ≤ i → i < num_samples rate duration →
        (pinkFilter (whiteOf randn duration rate)).getD i 0 =
          b 0 * (whiteOf randn duration rate).getD i 0
            + b 1 * (whiteOf randn duration rate).getD (i - 1) 0
            + b 2 * (whiteOf randn duration rate).getD (i - 2) 0
            + b 3 * (whiteOf randn duration rate).getD (i - 3) 0
            - a 1 * (pinkFilter (whiteOf randn duration rate)).getD (i - 1) 0
            - a 2 * (pinkFilter (whiteOf randn duration rate)).getD (i - 2) 0
            - a 3 * (pinkFilter (whiteOf randn duration rate)).getD (i - 3) 0)
    ∧ (maxAbs (pinkFilter (whiteOf randn duration rate)) ≠ 0 →
        ∀ i, i < 3 → (generate_pink_noise randn amplitude duration rate).getD i 0 = 0) := by
  set white := whiteOf randn duration rate with hwhite
  have hlen : white.length = num_samples rate duration := whiteOf_length randn duration rate
  have hplen : (pinkFilter white).length = num_samples rate duration := by
    rw [pinkFilter_length, hlen]
  have hzero : ∀ i, i < 3 → (pinkFilter white).getD i 0 = 0 := by
    intro i hi
    by_cases hiw : i < white.length
    · rw [pinkFilter_getD white i hiw]
      exact pinkStep_of_lt_three _ i hi
    · exact List.getD_eq_default _ _ (by rw [pinkFilter_length]; omega)
  refine ⟨hplen, hzero, ?_, ?_⟩
  · intro i h3 hN
    obtain ⟨k, rfl⟩ : ∃ k, i = k + 3 := ⟨i - 3, by omega⟩
    have hkw : ∀ j, j ≤ k + 3 → j < white.length := by intro j hj; omega
    rw [pinkFilter_getD white _ (hkw _ le_rfl)]
    have e1 : k + 3 - 1 = k + 2 := by omega
    have e2 : k + 3 - 2 = k + 1 := by omega
    have e3 : k + 3 - 3 = k := by omega
    rw [e1, e2, e3,
      pinkFilter_getD white _ (hkw _ (by omega)),
      pinkFilter_getD white _ (hkw _ (by omega)),
      pinkFilter_getD white _ (hkw _ (by omega))]
    exact pinkStep_add_three _ k
  · intro _ i hi
    by_cases hip : i < (pinkFilter white).length
    · unfold generate_pink_noise
      rw [← hwhite, List.getD_eq_getElem?_getD, List.getElem?_map,
        List.getElem?_eq_getElem hip]
      have h0 : (pinkFilter white)[i] = 0 := by
        rw [← List.getD_eq_getElem (pinkFilter white) 0 hip]
        exact hzero i hi
      simp [h0]
    · refine List.getD_eq_default _ _ ?_
      unfold generate_pink_noise
      rw [← hwhite, List.length_map]
      omega

/-- C2. When the filtered sequence is not all zero, normalization makes the
peak absolute value of the returned signal exactly the requested
(non-negative) amplitude. -/
theorem pink_noise_peak_equals_amplitude (randn : ℕ → ℚ) (amplitude duration : ℚ)
    (rate : ℕ) (hA : 0 ≤ amplitude)
    (hnz : ∃ x ∈ pinkFilter (whiteOf randn duration rate), x ≠ 0) :
    maxAbs (generate_pink_noise randn amplitude duration rate) = amplitude := by
  have hM : 0 < maxAbs (pinkFilter (whiteOf randn duration rate)) := maxAbs_pos _ hnz
  unfold generate_pink_noise
  have hfun :
      (fun x : ℚ => x / maxAbs (pinkFilter (whiteOf randn duration rate)) * amplitude)
        = fun x : ℚ =>
            x * (amplitude / maxAbs (pinkFilter (whiteOf randn duration rate))) := by
    funext x; ring
  rw [hfun, maxAbs_map_mul _ _ (div_nonneg hA hM.le), mul_comm,
    div_mul_cancel₀ _ (ne_of_gt hM)]

/-- Witness for C2 at a concrete draw: white = [0, 0, 0, 1], whose filtered
sequence is [0, 0, 0, b0], is not all zero, and the returned peak is the
requested amplitude 1. -/
theorem pink_noise_peak_equals_amplitude_witness :
    (0 ≤ (1 : ℚ)
      ∧ ∃ x ∈ pinkFilter (whiteOf (fun j => if j = 3 then (1 : ℚ) else 0) 2 2), x ≠ 0)
    ∧ maxAbs (generate_pink_noise (fun j => if j = 3 then (1 : ℚ) else 0) 1 2 2) = 1 := by
  have hw : whiteOf (fun j => if j = 3 then (1 : ℚ) else 0) 2 2 = [0, 0, 0, 1] := by
    norm_num [whiteOf, num_samples_two_two, List.range_succ]
  have hp : pinkFilter (whiteOf (fun j => if j = 3 then (1 : ℚ) else 0) 2 2)
      = [0, 0, 0, b 0] := by
    rw [hw]
    simp [pinkFilter, List.range_succ, pinkStep_zero, pinkStep_one, pinkStep_two,
      pinkStep_three]
  have hnz : ∃ x ∈ pinkFilter (whiteOf (fun j => if j = 3 then (1 : ℚ) else 0) 2 2),
      x ≠ 0 := by
    rw [hp]
    exact ⟨b 0, by simp, by norm_num [b]⟩
  exact ⟨⟨by norm_num, hnz⟩,
    pink_noise_peak_equals_amplitude _ 1 2 2 (by norm_num) hnz⟩

/-- C3. The code has no degenerate-case handling: on an all-zero white draw
(here N = floor(2 x 2) = 4 zero draws, amplitude 1) the filtered sequence
is all zero, the normalization divisor np.max(np.abs(pink)) is zero, and
every returned sample is the non-finite double 0.0/0.0 (NaN, modelled
none) — not a silent signal and not a DegenerateSignal error. -/
theorem pink_noise_degenerate_draw_yields_nan :
    generate_pink_noise_float (fun _ => 0) 1 2 2 = [none, none, none, none] := by
  have hw : whiteOf (fun _ => (0 : ℚ)) 2 2 = [0, 0, 0, 0] := by
    norm_num [whiteOf, num_samples_two_two, List.range_succ]
  have hp : pinkFilter (whiteOf (fun _ => (0 : ℚ)) 2 2) = [0, 0, 0, 0] := by
    rw [hw]
    simp [pinkFilter, List.range_succ, pinkStep_zero, pinkStep_one, pinkStep_two,
      pinkStep_three]
  have hm : maxAbs ([0, 0, 0, 0] : List ℚ) = 0 := by simp [maxAbs]
  unfold generate_pink_noise_float
  rw [hp]
  simp [hm]

/-- np.clip(x, -1.0, 1.0) (line 42). -/
def clip1 (x : ℚ) : ℚ := min 1 (max (-1) x)

/-- Truncation toward zero: the effect of .astype(np.int16) on an in-range
double (C cast semantics) and of Python int() on a float. -/
def truncZ (q : ℚ) : ℤ := if 0 ≤ q then Int.floor q else -Int.floor (-q)

/-- One encoded sample of write_wav (lines 42-43): clip to [-1, 1],
multiply by 32767, cast to int16 by truncation toward zero. -/
def quantize (x : ℚ) : ℤ := truncZ (clip1 x * 32767)

/-- data_int for one channel (line 43). -/
def encodeMono (data : List ℚ) : List ℤ := data.map quantize

/-- Stereo interleaving (lines 53-55): interleaved[0::2] = data_int[0] and
interleaved[1::2] = data_int[1], for the equal-length channels a 2-row
numpy array holds. -/
def interleave : List ℤ → List ℤ → List ℤ
  | x :: xs, y :: ys => x :: y :: interleave xs ys
  | _, _ => []

/-- The encoded artifact wave.open writes (lines 45-58): the header fields
set by setnchannels, setsampwidth and setframerate, and the signed 16-bit
samples passed to writeframes. -/
structure PCMFrame where
  nchannels : ℕ
  sampwidth : ℕ
  framerate : ℕ
  frames : List ℤ

/-- write_wav's encoding of a mono signal (lines 46-49, 58). -/
def encodeFrameMono (data : List ℚ) (rate : ℕ) : PCMFrame :=
  ⟨1, 2, rate, encodeMono data⟩

/-- write_wav's encoding of a stereo signal (lines 46-56). -/
def encodeFrameStereo (left right : List ℚ) (rate : ℕ) : PCMFrame :=
  ⟨2, 2, rate, interleave (encodeMono left) (encodeMono right)⟩

/-- tobytes() of one int16 sample (lines 56, 58): the two's-complement,
little-endian byte pair. -/
def int16ToBytes (z : ℤ) : List ℕ :=
  [(z % 65536).toNat % 256, (z % 65536).toNat / 256]

/-- tobytes() of the whole sample sequence. -/
def toBytes (frames : List ℤ) : List ℕ := frames.flatMap int16ToBytes

/-- Decoding of one little-endian two's-complement int16 byte pair. -/
def decodeInt16 (lo hi : ℕ) : ℤ :=
  if lo + 256 * hi < 32768 then ((lo : ℤ) + 256 * hi) else ((lo : ℤ) + 256 * hi) - 65536

/-- Decoding of a byte stream back into int16 samples. -/
def decodeBytes : List ℕ → List ℤ
  | lo :: hi :: rest => decodeInt16 lo hi :: decodeBytes rest
  | _ => []

/-- The even-index cells of an interleaved sequence (the left channel). -/
def evens : List ℤ → List ℤ
  | x :: _ :: t => x :: evens t
  | [x] => [x]
  | [] => []

/-- The odd-index cells of an interleaved sequence (the right channel). -/
def odds : List ℤ → List ℤ
  | _ :: y :: t => y :: odds t
  | _ => []

/-- os.makedirs(dirname, exist_ok=True) (line 39), acting on the list of
directories that exist. -/
def mkdirs (dirname : String) (fs : List String) : List String :=
  if dirname ∈ fs then fs else dirname :: fs

/-- write_wav on a mono signal (lines 36-58): the encoded PCM frame, the
filesystem's directories after the call, and the caller's sample array
after the call. np.clip and astype both allocate fresh arrays (the local
name data is merely rebound at lines 42-43), so the caller's array is
returned unchanged. -/
def write_wav_mono (dirname : String) (data : List ℚ) (rate : ℕ) (fs : List String) :
    PCMFrame × List String × List ℚ :=
  (encodeFrameMono data rate, mkdirs dirname fs, data)

/-- write_wav on a stereo signal (lines 36-58), with the same final-state
components as write_wav_mono. -/
def write_wav_stereo (dirname : String) (left right : List ℚ) (rate : ℕ)
    (fs : List String) : PCMFrame × List String × (List ℚ × List ℚ) :=
  (encodeFrameStereo left right rate, mkdirs dirname fs, (left, right))

/-- The output directory name the driver passes (line 89). -/
def outputDir : String := "output"

lemma clip1_le_one (x : ℚ) : clip1 x ≤ 1 := min_le_left _ _

lemma neg_one_le_clip1 (x : ℚ) : -1 ≤ clip1 x :=
  le_min (by norm_num) (le_max_left _ _)

lemma quantize_range (x : ℚ) : -32767 ≤ quantize x ∧ quantize x ≤ 32767 := by
  unfold quantize truncZ
  have h1 := neg_one_le_clip1 x
  have h2 := clip1_le_one x
  have hb1 : -(32767 : ℚ) ≤ clip1 x * 32767 := by nlinarith
  have hb2 : clip1 x * 32767 ≤ 32767 := by nlinarith
  split
  · refine ⟨Int.le_floor.2 (by push_cast; linarith), ?_⟩
    have h3 : (⌊clip1 x * 32767⌋ : ℚ) ≤ 32767 := le_trans (Int.floor_le _) hb2
    exact_mod_cast h3
  · rename_i hq
    push_neg at hq
    have h4 : (0 : ℚ) ≤ -(clip1 x * 32767) := by linarith
    have h5 : -(clip1 x * 32767) ≤ 32767 := by linarith
    have h6 : (0 : ℤ) ≤ ⌊-(clip1 x * 32767)⌋ := Int.floor_nonneg.2 h4
    have h7 : (⌊-(clip1 x * 32767)⌋ : ℚ) ≤ 32767 := le_trans (Int.floor_le _) h5
    have h8 : ⌊-(clip1 x * 32767)⌋ ≤ (32767 : ℤ) := by exact_mod_cast h7
    omega

lemma quantize_one : quantize 1 = 32767 := by
  unfold quantize clip1 truncZ
  norm_num

lemma interleave_cons (x y : ℤ) (xs ys : List ℤ) :
    interleave (x :: xs) (y :: ys) = x :: y :: interleave xs ys := rfl

lemma evens_interleave (x : List ℤ) : ∀ y : List ℤ, x.length = y.length →
    evens (interleave x y) = x := by
  induction x with
  | nil =>
      intro y h
      cases y with
      | nil => rfl
      | cons c cs => simp at h
  | cons z zs ih =>
      intro y h
      cases y with
      | nil => simp at h
      | cons c cs =>
          rw [interleave_cons]
          show z :: evens (interleave zs cs) = z :: zs
          rw [ih cs (by simpa using h)]

lemma odds_interleave (x : List ℤ) : ∀ y : List ℤ, x.length = y.length →
    odds (interleave x y) = y := by
  induction x with
  | nil =>
      intro y h
      cases y with
      | nil => rfl
      | cons c cs => simp at h
  | cons z zs ih =>
      intro y h
      cases y with
      | nil => simp at h
      | cons c cs =>
          rw [interleave_cons]
          show c :: odds (interleave zs cs) = c :: cs
          rw [ih cs (by simpa using h)]

lemma mem_interleave (z : ℤ) (x : List ℤ) : ∀ y : List ℤ, z ∈ interleave x y →
    z ∈ x ∨ z ∈ y := by
  induction x with
  | nil =>
      intro y h
      cases y with
      | nil => cases h
      | cons c cs => cases h
  | cons w ws ih =>
      intro y h
      cases y with
      | nil => cases h
      | cons c cs =>
          rw [interleave_cons] at h
          rcases List.mem_cons.1 h with rfl | h2
          · exact Or.inl (List.mem_cons_self _ _)
          · rcases List.mem_cons.1 h2 with rfl | h3
            · exact Or.inr (List.mem_cons_self _ _)
            · rcases ih cs h3 with h4 | h4
              · exact Or.inl (List.mem_cons_of_mem _ h4)
              · exact Or.inr (List.mem_cons_of_mem _ h4)

lemma int16_roundtrip (z : ℤ) (h1 : -32768 ≤ z) (h2 : z < 32768) :
    decodeInt16 ((z % 65536).toNat % 256) ((z % 65536).toNat / 256) = z := by
  unfold decodeInt16
  split <;> omega

lemma decodeBytes_cons (lo hi : ℕ) (rest : List ℕ) :
    decodeBytes (lo :: hi :: rest) = decodeInt16 lo hi :: decodeBytes rest := rfl

lemma decodeBytes_toBytes (l : List ℤ) (h : ∀ z ∈ l, -32768 ≤ z ∧ z < 32768) :
    decodeBytes (toBytes l) = l := by
  induction l with
  | nil => rfl
  | cons z t ih =>
      have hz := h z (List.mem_cons_self _ _)
      have ht : ∀ y ∈ t, -32768 ≤ y ∧ y < 32768 := fun y hy =>
        h y (List.mem_cons_of_mem _ hy)
      have hb : toBytes (z :: t)
          = (z % 65536).toNat % 256 :: (z % 65536).toNat / 256 :: toBytes t := rfl
      rw [hb, decodeBytes_cons, int16_roundtrip z hz.1 hz.2, ih ht]

lemma getD_map_quantize (l : List ℚ) (i : ℕ) (hi : i < l.length) :
    (l.map quantize).getD i 0 = quantize (l.getD i 0) := by
  rw [List.getD_eq_getElem?_getD, List.getElem?_map, List.getElem?_eq_getElem hi,
    List.getD_eq_getElem l 0 hi]
  rfl

/-- C4. PCM encoding: each channel is clipped to [-1, 1], scaled by 32767
and truncated toward zero; stereo frames are interleaved L,R,L,R with the
per-channel count exactly the source length; and decoding the produced
byte stream recovers every encoded 16-bit integer exactly. -/
theorem pcm_encode_interleave_roundtrip (left right : List ℚ) (rate : ℕ)
    (h : left.length = right.length) :
    evens (encodeFrameStereo left right rate).frames = left.map quantize
    ∧ odds (encodeFrameStereo left right rate).frames = right.map quantize
    ∧ (left.map quantize).length = left.length
    ∧ (right.map quantize).length = right.length
    ∧ (∀ i, i < left.length →
        (evens (encodeFrameStereo left right rate).frames).getD i 0
            = truncZ (clip1 (left.getD i 0) * 32767)
        ∧ (odds (encodeFrameStereo left right rate).frames).getD i 0
            = truncZ (clip1 (right.getD i 0) * 32767))
    ∧ decodeBytes (toBytes (encodeFrameStereo left right rate).frames)
        = (encodeFrameStereo left right rate).frames
    ∧ (encodeFrameMono left rate).frames = left.map quantize := by
  have hlen : (encodeMono left).length = (encodeMono right).length := by
    simp [encodeMono, h]
  have hev : evens (encodeFrameStereo left right rate).frames = left.map quantize := by
    show evens (interleave (encodeMono left) (encodeMono right)) = _
    rw [evens_interleave _ _ hlen]
    rfl
  have hod : odds (encodeFrameStereo left right rate).frames = right.map quantize := by
    show odds (interleave (encodeMono left) (encodeMono right)) = _
    rw [odds_interleave _ _ hlen]
    rfl
  refine ⟨hev, hod, List.length_map _ _, List.length_map _ _, ?_, ?_, rfl⟩
  · intro i hi
    constructor
    · rw [hev, getD_map_quantize left i hi]; rfl
    · rw [hod, getD_map_quantize right i (by omega)]; rfl
  · refine decodeBytes_toBytes _ ?_
    intro z hz
    have hz2 : z ∈ encodeMono left ∨ z ∈ encodeMono right := mem_interleave z _ _ hz
    have hq : -32767 ≤ z ∧ z ≤ 32767 := by
      rcases hz2 with hm | hm <;>
        · obtain ⟨x, _, rfl⟩ := List.mem_map.1 hm
          exact quantize_range x
    omega

/-- Witness for C4 at concrete channels of equal length 2: left = [1/2, -1],
right = [-3/2, 1/4], sample rate 44100. -/
theorem pcm_encode_interleave_roundtrip_witness :
    ([(1 : ℚ)/2, -1].length = [(-3 : ℚ)/2, 1/4].length)
    ∧ (evens (encodeFrameStereo [(1 : ℚ)/2, -1] [(-3 : ℚ)/2, 1/4] 44100).frames
          = [(1 : ℚ)/2, -1].map quantize
        ∧ odds (encodeFrameStereo [(1 : ℚ)/2, -1] [(-3 : ℚ)/2, 1/4] 44100).frames
            = [(-3 : ℚ)/2, 1/4].map quantize
        ∧ ([(1 : ℚ)/2, -1].map quantize).length = [(1 : ℚ)/2, -1].length
        ∧ ([(-3 : ℚ)/2, 1/4].map quantize).length = [(-3 : ℚ)/2, 1/4].length
        ∧ (∀ i, i < [(1 : ℚ)/2, -1].length →
            (evens (encodeFrameStereo [(1 : ℚ)/2, -1] [(-3 : ℚ)/2, 1/4] 44100).frames).getD i 0
                = truncZ (clip1 ([(1 : ℚ)/2, -1].getD i 0) * 32767)
            ∧ (odds (encodeFrameStereo [(1 : ℚ)/2, -1] [(-3 : ℚ)/2, 1/4] 44100).frames).getD i 0
                = truncZ (clip1 ([(-3 : ℚ)/2, 1/4].getD i 0) * 32767))
        ∧ decodeBytes (toBytes (encodeFrameStereo [(1 : ℚ)/2, -1] [(-3 : ℚ)/2, 1/4] 44100).frames)
            = (encodeFrameStereo [(1 : ℚ)/2, -1] [(-3 : ℚ)/2, 1/4] 44100).frames
        ∧ (encodeFrameMono [(1 : ℚ)/2, -1] 44100).frames = [(1 : ℚ)/2, -1].map quantize) :=
  ⟨rfl, pcm_encode_interleave_roundtrip [(1 : ℚ)/2, -1] [(-3 : ℚ)/2, 1/4] 44100 rfl⟩

/-- C8. Quantization stays inside the representable signed 16-bit range
with no wraparound: every encoded integer lies in [-32767, 32767], the
full-scale sample 1.0 encodes to 32767 exactly, and a constant signal of
samples 1.0 encodes to a constant sequence of 32767. -/
theorem quantize_clips_range_and_full_scale :
    (∀ x : ℚ, -32767 ≤ quantize x ∧ quantize x ≤ 32767)
    ∧ quantize 1 = 32767
    ∧ ∀ n : ℕ, encodeMono (List.replicate n 1) = List.replicate n 32767 := by
  refine ⟨quantize_range, quantize_one, ?_⟩
  intro n
  unfold encodeMono
  rw [List.map_replicate, quantize_one]

/-- Counterexample to C9: starting from a filesystem with no directories
at all, write_wav itself creates the destination directory "output"
(os.makedirs with exist_ok=True at line 39), so the filesystem does gain
a new directory from the core. -/
theorem write_wav_creates_missing_directory :
    outputDir ∈ (write_wav_mono outputDir [0] 44100 []).2.1
    ∧ outputDir ∉ ([] : List String) := by
  constructor
  · show outputDir ∈ mkdirs outputDir []
    simp [mkdirs]
  · simp

/-- C9 as amended: write_wav always ensures the destination directory
exists after the call, creating it itself when it is absent. -/
theorem write_wav_ensures_directory (dirname : String) (data : List ℚ) (rate : ℕ)
    (fs : List String) : dirname ∈ (write_wav_mono dirname data rate fs).2.1 := by
  show dirname ∈ mkdirs dirname fs
  unfold mkdirs
  split
  · assumption
  · exact List.mem_cons_self _ _

/-- C10. Encoding never mutates the caller's signal: the caller-visible
sample arrays after write_wav equal the arrays passed in (np.clip and
astype allocate fresh arrays; the original is never written). -/
theorem write_wav_leaves_input_unchanged (dirname : String) (data left right : List ℚ)
    (rate : ℕ) (fs : List String) :
    (write_wav_mono dirname data rate fs).2.2 = data
    ∧ (write_wav_stereo dirname left right rate fs).2.2 = (left, right) :=
  ⟨rfl, rfl⟩

/-- int(sample_rate * duration) for the sine generator (line 62), over the
reals: int() truncates toward zero, the floor for the non-negative products
the program forms (np.linspace raises on a negative sample count before
any sample exists). -/
noncomputable def num_samples_real (rate : ℕ) (duration : ℝ) : ℕ :=
  (Int.floor ((rate : ℝ) * duration)).toNat

/-- np.linspace(0, stop, num, endpoint=False) (line 62): num points from 0
with step stop / num. -/
noncomputable def linspace (stop : ℝ) (num : ℕ) : List ℝ :=
  (List.range num).map (fun i : ℕ => (i : ℝ) * (stop / num))

/-- generate_sine_tone (lines 60-63): amplitude * sin(2 pi freq t) at every
linspace timestamp. -/
noncomputable def generate_sine_tone (freq amplitude duration : ℝ) (rate : ℕ) : List ℝ :=
  (linspace duration (num_samples_real rate duration)).map
    (fun t => amplitude * Real.sin (2 * Real.pi * freq * t))

/-- np.array([left, right]) building a stereo signal (lines 99, 106, 113,
119, 128, 133, 140, 146, 156, 163, 170, 191): stacking two equal-length
rows yields a 2 x n array, and rows of unequal length raise ValueError (a
ragged nesting), modelled none. No other validation exists, and a signal
carries no sample-rate attribute that could be compared. -/
def composeStereo {α : Type} (left right : List α) : Option (List α × List α) :=
  if left.length = right.length then some (left, right) else none

lemma linspace_length (stop : ℝ) (num : ℕ) : (linspace stop num).length = num := by
  simp [linspace]

lemma generate_sine_tone_length (freq amplitude duration : ℝ) (rate : ℕ) :
    (generate_sine_tone freq amplitude duration rate).length
      = num_samples_real rate duration := by
  simp [generate_sine_tone, linspace]

lemma generate_sine_tone_getD (freq amplitude duration : ℝ) (rate : ℕ) (i : ℕ)
    (h : i < num_samples_real rate duration) :
    (generate_sine_tone freq amplitude duration rate).getD i 0
      = amplitude * Real.sin (2 * Real.pi * freq *
          ((i : ℝ) * (duration / num_samples_real rate duration))) := by
  unfold generate_sine_tone
  rw [List.getD_eq_getElem?_getD, List.getElem?_map]
  have hl : (linspace duration (num_samples_real rate duration))[i]?
      = some ((i : ℝ) * (duration / num_samples_real rate duration)) := by
    unfold linspace
    rw [List.getElem?_map, List.getElem?_range h]
    rfl
  rw [hl]
  rfl

/-- C5 as amended: generate_sine_tone returns N = floor(sampleRate x
duration) samples whose i-th value is amplitude * sin(2 pi freq t_i) at
the np.linspace timestamp t_i = i * (duration / N); every timestamp is
strictly below duration (end-exclusive); and exactly when sampleRate x
duration is an integer the timestamps coincide with the claimed i /
sampleRate. -/
theorem sine_tone_linspace_samples (freq amplitude duration : ℝ) (rate : ℕ)
    (hD : 0 < duration) (hR : 0 < rate) :
    (generate_sine_tone freq amplitude duration rate).length
        = num_samples_real rate duration
    ∧ (∀ i, i < num_samples_real rate duration →
        (generate_sine_tone freq amplitude duration rate).getD i 0
          = amplitude * Real.sin (2 * Real.pi * freq *
              ((i : ℝ) * (duration / num_samples_real rate duration))))
    ∧ (∀ i, i < num_samples_real rate duration →
        (i : ℝ) * (duration / num_samples_real rate duration) < duration)
    ∧ ((rate : ℝ) * duration = num_samples_real rate duration →
        ∀ i : ℕ, (i : ℝ) * (duration / num_samples_real rate duration)
          = (i : ℝ) / rate) := by
  refine ⟨generate_sine_tone_length _ _ _ _,
    fun i hi => generate_sine_tone_getD _ _ _ _ i hi, ?_, ?_⟩
  · intro i hi
    have hN : 0 < num_samples_real rate duration := lt_of_le_of_lt (Nat.zero_le i) hi
    have hNr : (0 : ℝ) < num_samples_real rate duration := by exact_mod_cast hN
    have hstep : 0 < duration / num_samples_real rate duration := div_pos hD hNr
    have hcast : (i : ℝ) < num_samples_real rate duration := by exact_mod_cast hi
    calc (i : ℝ) * (duration / num_samples_real rate duration)
        < (num_samples_real rate duration : ℝ)
            * (duration / num_samples_real rate duration) :=
          mul_lt_mul_of_pos_right hcast hstep
      _ = duration := by field_simp
  · intro heq i
    have hrr : (0 : ℝ) < rate := by exact_mod_cast hR
    rw [← heq]
    have hsimp : duration / ((rate : ℝ) * duration) = 1 / rate := by
      field_simp
      ring
    rw [hsimp]
    ring

/-- Witness for C5's amended statement at frequency 1, amplitude 1,
duration 1 second, sample rate 2. -/
theorem sine_tone_linspace_samples_witness :
    ((0 : ℝ) < 1 ∧ 0 < 2)
    ∧ ((generate_sine_tone 1 1 1 2).length = num_samples_real 2 1
      ∧ (∀ i, i < num_samples_real 2 1 →
          (generate_sine_tone 1 1 1 2).getD i 0
            = 1 * Real.sin (2 * Real.pi * 1 *
                ((i : ℝ) * (1 / num_samples_real 2 1))))
      ∧ (∀ i, i < num_samples_real 2 1 →
          (i : ℝ) * (1 / num_samples_real 2 1) < 1)
      ∧ (((2 : ℕ) : ℝ) * 1 = num_samples_real 2 1 →
          ∀ i : ℕ, (i : ℝ) * (1 / num_samples_real 2 1) = (i : ℝ) / (2 : ℕ))) :=
  ⟨⟨by norm_num, by norm_num⟩,
    sine_tone_linspace_samples 1 1 1 2 (by norm_num) (by norm_num)⟩

/-- Counterexample to C5: at frequency 2, amplitude 1, duration 5/4,
sample rate 2 (so that sampleRate x duration = 5/2 is not an integer,
N = 2), the second sample is sin(5 pi / 2) = 1, not the claimed
amplitude * sin(2 pi freq (i / sampleRate)) = sin(2 pi) = 0: np.linspace
spaces the N samples by duration / N, not by 1 / sampleRate. -/
theorem sine_tone_claimed_timestamp_false :
    (generate_sine_tone 2 1 (5/4) 2).getD 1 0
      ≠ 1 * Real.sin (2 * Real.pi * 2 * ((1 : ℝ) / 2)) := by
  have hfl : Int.floor (((2 : ℕ) : ℝ) * (5/4)) = 2 := by
    push_cast
    norm_num [Int.floor_eq_iff]
  have hN : num_samples_real 2 (5/4) = 2 := by
    unfold num_samples_real
    rw [hfl]
    rfl
  have hget := generate_sine_tone_getD 2 1 (5/4) 2 1 (by rw [hN]; norm_num)
  rw [hget, hN]
  have harg : 2 * Real.pi * 2 * (((1 : ℕ) : ℝ) * ((5/4) / ((2 : ℕ) : ℝ)))
      = Real.pi / 2 + 2 * Real.pi := by
    push_cast
    ring
  rw [harg, Real.sin_add_two_pi, Real.sin_pi_div_two]
  have harg2 : 2 * Real.pi * 2 * ((1 : ℝ) / 2) = 2 * Real.pi := by ring
  rw [harg2, Real.sin_two_pi]
  norm_num

/-- Counterexample to C6: frequency 0 requires positivity per the claim,
yet the call returns an ordinary signal — eight zero samples for duration
1 second at sample rate 8 — instead of failing with InvalidParameter. No
parameter check exists anywhere in the generators. -/
theorem sine_tone_zero_frequency_returns_signal :
    generate_sine_tone 0 1 1 8 = List.replicate 8 0 := by
  have hfl : Int.floor (((8 : ℕ) : ℝ) * 1) = 8 := by
    push_cast
    norm_num
  have hN : num_samples_real 8 1 = 8 := by
    unfold num_samples_real
    rw [hfl]
    rfl
  unfold generate_sine_tone linspace
  rw [hN]
  simp [mul_zero, zero_mul, Real.sin_zero]
  rfl

/-- C6 as amended: the generators validate nothing — for every frequency
(zero and negative included), amplitude and duration, both generators
are total and return a signal of floor(sampleRate x duration) samples;
no InvalidParameter error path exists in the code. -/
theorem generators_perform_no_validation (freq amplitude duration : ℝ) (rate : ℕ)
    (randn : ℕ → ℚ) (amp2 dur2 : ℚ) (rate2 : ℕ) :
    (generate_sine_tone freq amplitude duration rate).length
        = num_samples_real rate duration
    ∧ (generate_pink_noise randn amp2 dur2 rate2).length = num_samples rate2 dur2 := by
  refine ⟨generate_sine_tone_length _ _ _ _, ?_⟩
  unfold generate_pink_noise
  rw [List.length_map, pinkFilter_length, whiteOf_length]

/-- Counterexample to C7: two equal-length mono signals generated at
different sample rates — one second at 8 Hz and two seconds at 4 Hz, eight
samples each — compose into a StereoSignal; nothing fails, because a
signal carries no sample rate the composer could compare. -/
theorem compose_rate_mismatch_produces_stereo :
    (composeStereo (generate_sine_tone 1 1 1 8) (generate_sine_tone 1 1 2 4)).isSome
      = true := by
  have hfl8 : Int.floor (((8 : ℕ) : ℝ) * 1) = 8 := by
    push_cast
    norm_num
  have hfl4 : Int.floor (((4 : ℕ) : ℝ) * 2) = 8 := by
    push_cast
    norm_num
  have h8 : num_samples_real 8 1 = 8 := by
    unfold num_samples_real
    rw [hfl8]
    rfl
  have h4 : num_samples_real 4 2 = 8 := by
    unfold num_samples_real
    rw [hfl4]
    rfl
  unfold composeStereo
  rw [generate_sine_tone_length, generate_sine_tone_length, h8, h4]
  simp

/-- C7 as amended: composition succeeds exactly when the two channels have
equal length (unequal lengths fail only in the array library's stacking);
sample rates are not represented and never checked. -/
theorem compose_succeeds_iff_equal_length {α : Type} (left right : List α) :
    (composeStereo left right).isSome ↔ left.length = right.length := by
  unfold composeStereo
  split <;> simp_all

end Soundman
